import Mathlib

/-!
# The crawl engine of `mwsv3.cpp`

A shallow embedding of the crawler in `src/mwsv3.cpp`: URL normalisation, the
robots.txt gate `is_allowed`, the retry loop of `scrape_url`, the worker loop
and the pool of workers sharing `url_queue`.

Conventions of the embedding.

* A `std::string` is a list of characters (`Str`); `std::string::npos` is `none`.
* The global variables the crawl mutates are the fields of `CrawlState`; four
  further fields are logs of the calls made (`performed`, `parsed`, `saved`,
  `dequeued`) so that statements can speak about them.
* libcurl and libxml2 are outside the repository; they enter as the fields of
  `Env` (what a transfer delivers and returns, which `href` values a page has).
* `depth` is an unbounded integer: the source's `int` only ever grows by one
  from zero and signed overflow is not modelled.
-/

namespace Mwsv3

/-! ## Strings -/

/-- A `std::string`: its sequence of characters. -/
abbrev Str := List Char

/-- The call `s.find(needle)`: the lowest position where `needle` occurs in `s`,
`none` for `std::string::npos`. -/
def find (s needle : Str) : Option Nat :=
  match s with
  | [] => if needle.isEmpty then some 0 else none
  | c :: cs =>
    if needle.isPrefixOf (c :: cs) then some 0
    else (find cs needle).map (· + 1)

/-- The call `s.substr(pos)`. -/
def substr (s : Str) (pos : Nat) : Str := s.drop pos

/-- The call `s.find_first_not_of(chars)`: the position of the first character
of `s` that is not one of `chars`, `none` for `npos`. -/
def find_first_not_of (s chars : Str) : Option Nat :=
  match s with
  | [] => none
  | c :: cs =>
    if chars.contains c then (find_first_not_of cs chars).map (· + 1)
    else some 0

/-- The call `s.erase(0, len)`, where `len` may be `npos` (erase to the end). -/
def erase (s : Str) (len : Option Nat) : Str :=
  match len with
  | none => []
  | some n => s.drop n

/-- The lines that the loop `while (std::getline(stream, line))` reads from a
stream holding `content`: the pieces between newline characters, without a
final empty piece (a `getline` that extracts nothing at the end fails). -/
def getlines : Str → List Str
  | [] => []
  | c :: cs =>
    if c = '\n' then [] :: getlines cs
    else
      match getlines cs with
      | [] => [[c]]
      | l :: ls => (c :: l) :: ls

/-! ## Globals and `normalize_url` -/

def base_url : Str := "https://example.com/".toList

def initial_url : Str := base_url

def max_threads : Nat := 8

def max_depth : Int := 5

/-- The function `normalize_url` (lines 61-67). -/
def normalize_url (url : Str) : Str :=
  if url.isEmpty then []
  else if find url "http://".toList = some 0 || find url "https://".toList = some 0 then url
  else if url.head? = some '/' then base_url ++ substr url 1
  else if find url "://".toList ≠ none then url
  else base_url ++ url

/-- The function `WriteCallback` (lines 69-73): appends the delivered block to
`output` and reports its size. `contents` is the block of `size * nmemb` bytes. -/
def WriteCallback (contents : Str) (output : Str) : Str × Nat :=
  (output ++ contents, contents.length)

/-! ## The robots.txt gate -/

/-- The value of the local `disallowed_path` in `is_allowed` (lines 220-221):
what follows the first `Disallow:` of the line, leading blanks and tabs erased. -/
def disallowed_path (line : Str) : Str :=
  let p := substr line ((find line "Disallow:".toList).getD 0 + 9)
  erase p (find_first_not_of p " \t".toList)

/-- The `while` loop of `is_allowed` (lines 214-227) over the lines still to be
read, `apply_rule` being the loop's flag. -/
def is_allowed_loop (url : Str) : Bool → List Str → Bool
  | _, [] => true
  | apply_rule, line :: rest =>
    if find line "User-agent: *".toList ≠ none then is_allowed_loop url true rest
    else if find line "User-agent:".toList ≠ none then is_allowed_loop url false rest
    else if apply_rule = true ∧ find line "Disallow:".toList ≠ none then
      if find url (disallowed_path line) ≠ none then false
      else is_allowed_loop url apply_rule rest
    else is_allowed_loop url apply_rule rest

/-- The function `is_allowed` (lines 203-228), given the content of the global
`robots_txt_content` once `fetch_robots_txt` has filled it. -/
def is_allowed (robots_txt_content : Str) (url : Str) : Bool :=
  is_allowed_loop url false (getlines robots_txt_content)

/-! ## The crawl state, `scrape_url` and the worker loop -/

structure JobInfo where
  title : Str
  location : Str
  salary : Str
  datePosted : Str
  dueDate : Str
  emailAddress : Str
  applicationLink : Str
  deriving DecidableEq, Repr

/-- What one call of `curl_easy_perform` does: the blocks it hands to the write
callback, in order, and whether it returns `CURLE_OK`. -/
structure Transfer where
  delivered : List Str
  res_ok : Bool
  deriving DecidableEq, Repr

/-- The collaborators outside the repository. -/
structure Env where
  /-- The content of `robots_txt_content` after `fetch_robots_txt`. -/
  robots_txt_content : Str
  /-- The transfer libcurl performs for a URL at the attempt numbered `retries`. -/
  perform : Str → Nat → Transfer
  /-- The job records libxml2 finds in a page (the XPath part of `parse_html`). -/
  parse_html : Str → Str → List JobInfo
  /-- The non-null `href` values libxml2 finds for `//a/@href` in a page. -/
  hrefs : Str → List Str

/-- The shared globals and the logs of calls. -/
structure CrawlState where
  /-- The global `url_queue`, front first. -/
  url_queue : List (Str × Int)
  /-- The global `visited_urls`. -/
  visited_urls : List Str
  /-- Log: the URL of every `curl_easy_perform` call made by `scrape_url`. -/
  performed : List Str
  /-- Log: every page body handed to `parse_html` and `extract_links`. -/
  parsed : List Str
  /-- Log: every `save_to_db` call. -/
  saved : List (Str × List JobInfo)
  /-- Log: every entry a worker popped from `url_queue`. -/
  dequeued : List (Str × Int)
  deriving DecidableEq

/-- The function `extract_links` (lines 150-189): every `href` found, each
passed through `normalize_url`. -/
def extract_links (env : Env) (html : Str) : List Str :=
  (env.hrefs html).map normalize_url

/-- The statement `url_queue.push({link, depth + 1})` (line 311). -/
def url_queue_push (s : CrawlState) (link : Str) (depth : Int) : CrawlState :=
  { s with url_queue := s.url_queue ++ [(link, depth + 1)] }

/-- One `curl_easy_perform` with `CURLOPT_WRITEDATA = &html_content`: every
delivered block goes through `WriteCallback`. -/
def curl_easy_perform (t : Transfer) (html_content : Str) : Str :=
  t.delivered.foldl (fun output contents => (WriteCallback contents output).1) html_content

/-- The `while (retries < max_retries)` loop of `scrape_url` (lines 294-319).
The first argument is `max_retries - retries`, the number of iterations the
loop guard still admits. -/
def scrape_url_loop (env : Env) (url : Str) (depth : Int) :
    Nat → Nat → Str → CrawlState → CrawlState
  | 0, _, _, s => s
  | k + 1, retries, html_content, s =>
    let t := env.perform url retries
    let html_content := curl_easy_perform t html_content
    let s := { s with performed := s.performed ++ [url] }
    if t.res_ok then
      let jobs := env.parse_html html_content url
      let s := { s with parsed := s.parsed ++ [html_content],
                        saved := s.saved ++ [(url, jobs)] }
      let links := extract_links env html_content
      links.foldl (fun s link => url_queue_push s link depth) s
    else
      scrape_url_loop env url depth k (retries + 1) html_content s

/-- The function `scrape_url` (lines 291-320). -/
def scrape_url (env : Env) (url : Str) (depth : Int) (max_retries : Int)
    (s : CrawlState) : CrawlState :=
  scrape_url_loop env url depth max_retries.toNat 0 [] s

/-- The locked block of the worker loop (lines 331-339): pop the front entry,
or `none` when the queue is empty (the `break`). -/
def dequeue (s : CrawlState) : Option ((Str × Int) × CrawlState) :=
  match s.url_queue with
  | [] => none
  | url_pair :: rest =>
    some (url_pair, { s with url_queue := rest, dequeued := s.dequeued ++ [url_pair] })

/-- The rest of a worker iteration (lines 341-345): the gate, then `scrape_url`
with three retries. -/
def process (env : Env) (url_pair : Str × Int) (s : CrawlState) : CrawlState :=
  if !is_allowed env.robots_txt_content url_pair.1 then s
  else scrape_url env url_pair.1 url_pair.2 3 s

/-- One iteration of the `while (true)` loop of `worker`; `none` is the `break`. -/
def worker_iter (env : Env) (s : CrawlState) : Option CrawlState :=
  match dequeue s with
  | none => none
  | some (url_pair, s) => some (process env url_pair s)

/-- The worker loop run alone for at most `fuel` iterations: `some s` when the
loop left through its `break` in state `s`, `none` when it is still running. -/
def worker (env : Env) : Nat → CrawlState → Option CrawlState
  | 0, _ => none
  | fuel + 1, s =>
    match worker_iter env s with
    | none => some s
    | some s => worker env fuel s

/-- The state after `n` iterations of the worker loop, `none` once the loop has
left through its `break`. -/
def worker_after (env : Env) : Nat → CrawlState → Option CrawlState
  | 0, s => some s
  | n + 1, s =>
    match worker_iter env s with
    | none => none
    | some s => worker_after env n s

/-- The globals when `main` starts the workers (line 449). -/
def main_init : CrawlState :=
  { url_queue := [(initial_url, 0)], visited_urls := [], performed := [],
    parsed := [], saved := [], dequeued := [] }

/-! ## The pool of workers -/

/-- The first test of the loop of `is_allowed` (line 215): the text
`User-agent: *` is found somewhere in the line. -/
def isWildcardLine (line : Str) : Bool := (find line "User-agent: *".toList).isSome

/-- The second test of the loop of `is_allowed` (line 217): the text
`User-agent:` is found somewhere in the line. -/
def isAgentLine (line : Str) : Bool := (find line "User-agent:".toList).isSome

/-- The third test of the loop of `is_allowed` (line 219): the text `Disallow:`
is found somewhere in the line. -/
def isDisallowLine (line : Str) : Bool := (find line "Disallow:".toList).isSome

/-- The flag `apply_rule` after the loop of `is_allowed` has read one more line. -/
def headerStep (apply_rule : Bool) (line : Str) : Bool :=
  if isWildcardLine line then true
  else if isAgentLine line then false
  else apply_rule

/-- The flag `apply_rule` after the loop of `is_allowed` has read the lines
`pre`, when it was `apply_rule` before them: the last line among them that
passes the second test decides, by the first test. -/
def scopeAfter (apply_rule : Bool) (pre : List Str) : Bool :=
  match pre.reverse.find? isAgentLine with
  | some header => isWildcardLine header
  | none => apply_rule

/-! ## Notions the statements use, independent of the code -/

/-- The text made of the lines `ls`, each closed by a newline character. -/
def unlines (ls : List Str) : Str :=
  (ls.map (fun l => l ++ ['\n'])).flatten

/-- A blank or a tab. -/
def isBlank (c : Char) : Bool := c == ' ' || c == '\t'

/-- What follows the first `://` of a string, when it holds one. -/
def afterSchemeMark : Str → Option Str
  | [] => none
  | c :: cs =>
    if "://".toList <+: c :: cs then some (cs.drop 2)
    else afterSchemeMark cs

/-- The path of a URL: what follows the authority, from the first `/` after
the `://` of the scheme (the whole string when it has no scheme). -/
def url_path (url : Str) : Str :=
  match afterSchemeMark url with
  | some r => r.dropWhile (fun c => c != '/')
  | none => url

/-- A character allowed in a URL scheme after its first letter. -/
def isSchemeChar (c : Char) : Bool :=
  c.isAlphanum || c = '+' || c = '-' || c = '.'

/-- An absolute URL in the sense of the specification: the string begins with a
scheme (a letter, then letters, digits, `+`, `-`, `.`) followed by `://`. -/
def isAbsoluteUrl (u : Str) : Bool :=
  match u.takeWhile isSchemeChar with
  | [] => false
  | c :: scheme => c.isAlpha && "://".toList.isPrefixOf (u.drop (scheme.length + 1))

/-- The bytes the attempt numbered `i` on `url` delivers to `WriteCallback`. -/
def delivered_bytes (env : Env) (url : Str) (i : Nat) : Str :=
  (env.perform url i).delivered.flatten

/-- The bytes delivered by the attempts numbered `0` to `k` on `url`, in
attempt order. -/
def attempts_body (env : Env) (url : Str) (k : Nat) : Str :=
  ((List.range (k + 1)).map (delivered_bytes env url)).flatten

/-- The state a `scrape_url` call leaves when it started in `s`, made
`attempts` transfers and handed `body` to `parse_html` and `extract_links`. -/
def scraped (env : Env) (url : Str) (depth : Int) (s : CrawlState) (attempts : Nat)
    (body : Str) : CrawlState :=
  { url_queue := s.url_queue ++ (extract_links env body).map (fun link => (link, depth + 1))
    visited_urls := s.visited_urls
    performed := s.performed ++ List.replicate attempts url
    parsed := s.parsed ++ [body]
    saved := s.saved ++ [(url, env.parse_html body url)]
    dequeued := s.dequeued }

/-! ## Concrete collaborators used in the examples -/

/-- A site whose every page carries one link, to `/`, served without error and
with an empty robots.txt. -/
def selfLinkEnv : Env :=
  { robots_txt_content := []
    perform := fun _ _ => { delivered := ["<a href='/'>".toList], res_ok := true }
    parse_html := fun _ _ => []
    hrefs := fun _ => ["/".toList] }

/-- A site whose robots.txt closes `/private` to every agent. -/
def privateEnv : Env :=
  { robots_txt_content := "User-agent: *\nDisallow: /private\n".toList
    perform := fun _ _ => { delivered := [], res_ok := true }
    parse_html := fun _ _ => []
    hrefs := fun _ => [] }

/-- A transport whose first two transfers of a URL fail after delivering `ab`
and `cd`, and whose third succeeds delivering `e` and `f`. -/
def flakyEnv : Env :=
  { robots_txt_content := []
    perform := fun _ i =>
      if i = 0 then { delivered := ["ab".toList], res_ok := false }
      else if i = 1 then { delivered := ["cd".toList], res_ok := false }
      else { delivered := ["e".toList, "f".toList], res_ok := true }
    parse_html := fun _ _ => []
    hrefs := fun _ => [] }

/-- A site whose every page links twice to `/a`. -/
def twinLinkEnv : Env :=
  { robots_txt_content := []
    perform := fun _ _ => { delivered := [], res_ok := true }
    parse_html := fun _ _ => []
    hrefs := fun _ => ["/a".toList, "/a".toList] }

/-- A transport that fails every transfer after delivering one block. -/
def failingEnv : Env :=
  { robots_txt_content := []
    perform := fun _ _ => { delivered := ["x".toList], res_ok := false }
    parse_html := fun _ _ => []
    hrefs := fun _ => [] }

/-! ## Lemmas on strings -/

theorem find_ne_none_iff (s needle : Str) : find s needle ≠ none ↔ needle <:+: s := by
  induction s with
  | nil =>
    cases needle <;> simp [find]
  | cons c cs ih =>
    unfold find
    by_cases hp : needle.isPrefixOf (c :: cs) = true
    · rw [if_pos hp]
      have hpre : needle <+: c :: cs := List.isPrefixOf_iff_prefix.mp hp
      simp [hpre.isInfix]
    · rw [if_neg hp]
      have hpre : ¬ needle <+: c :: cs := fun h => hp (List.isPrefixOf_iff_prefix.mpr h)
      rw [List.infix_cons_iff]
      constructor
      · intro h
        right
        apply ih.mp
        intro h0
        apply h
        simp [h0]
      · rintro (h | h)
        · exact absurd h hpre
        · have := ih.mpr h
          cases hf : find cs needle with
          | none => exact absurd hf this
          | some k => simp

theorem find_eq_zero_iff (s needle : Str) : find s needle = some 0 ↔ needle <+: s := by
  cases s with
  | nil => cases needle <;> simp [find]
  | cons c cs =>
    unfold find
    by_cases hp : needle.isPrefixOf (c :: cs) = true
    · rw [if_pos hp]
      simpa using List.isPrefixOf_iff_prefix.mp hp
    · rw [if_neg hp]
      have hpre : ¬ needle <+: c :: cs := fun h => hp (List.isPrefixOf_iff_prefix.mpr h)
      cases hf : find cs needle <;> simp [hpre]

theorem erase_find_first_not_of (p chars : Str) :
    erase p (find_first_not_of p chars) = p.dropWhile (fun c => chars.contains c) := by
  induction p with
  | nil => simp [find_first_not_of, erase]
  | cons c cs ih =>
    unfold find_first_not_of
    by_cases hc : chars.contains c = true
    · rw [if_pos hc, List.dropWhile_cons_of_pos hc, ← ih]
      cases hf : find_first_not_of cs chars <;> simp [erase]
    · rw [if_neg hc, List.dropWhile_cons_of_neg hc]
      simp [erase]

theorem afterSchemeMark_suffix (url r : Str) (h : afterSchemeMark url = some r) : r <:+ url := by
  induction url with
  | nil => simp [afterSchemeMark] at h
  | cons c cs ih =>
    rw [afterSchemeMark] at h
    split at h
    · simp only [Option.some.injEq] at h
      subst h
      exact (List.drop_suffix _ _).trans (List.suffix_cons _ _)
    · exact (ih h).trans (List.suffix_cons _ _)

theorem url_path_suffix (url : Str) : url_path url <:+ url := by
  unfold url_path
  split
  · next r h => exact (List.dropWhile_suffix _).trans (afterSchemeMark_suffix url r h)
  · exact List.suffix_refl _

/-! ## The gate: scope selection and the loop -/

theorem isAgentLine_of_isWildcardLine (line : Str) (h : isWildcardLine line = true) :
    isAgentLine line = true := by
  have hw : find line "User-agent: *".toList ≠ none := by
    unfold isWildcardLine at h
    intro h0
    rw [h0] at h
    exact absurd h (by decide)
  have hin : "User-agent: *".toList <:+: line := (find_ne_none_iff _ _).mp hw
  have hpre : "User-agent:".toList <+: "User-agent: *".toList := by decide
  have ha : find line "User-agent:".toList ≠ none :=
    (find_ne_none_iff _ _).mpr (hpre.isInfix.trans hin)
  unfold isAgentLine
  cases hf : find line "User-agent:".toList with
  | none => exact absurd hf ha
  | some k => rfl

theorem ne_none_iff_isSome_true (o : Option Nat) : o ≠ none ↔ o.isSome = true := by
  cases o <;> simp

theorem scopeAfter_nil (a : Bool) : scopeAfter a [] = a := rfl

theorem scopeAfter_cons (a : Bool) (line : Str) (pre : List Str) :
    scopeAfter a (line :: pre) = scopeAfter (headerStep a line) pre := by
  unfold scopeAfter headerStep
  rw [List.reverse_cons, List.find?_append]
  cases hfind : pre.reverse.find? isAgentLine with
  | some header => simp
  | none =>
    by_cases hag : isAgentLine line = true
    · by_cases hw : isWildcardLine line = true
      · simp [hag, hw]
      · simp [hag, hw]
    · have hw : ¬ isWildcardLine line = true :=
        fun h => hag (isAgentLine_of_isWildcardLine line h)
      simp [hag, hw]

/-- One iteration of the loop of `is_allowed`: it answers `false` on a line that
is no agent header, holds `Disallow:` while the flag is set, and whose path
occurs in the URL; otherwise it goes on with the flag updated. -/
theorem is_allowed_loop_cons (url : Str) (a : Bool) (line : Str) (rest : List Str) :
    is_allowed_loop url a (line :: rest) =
      if isAgentLine line = false ∧ a = true ∧ isDisallowLine line = true ∧
          find url (disallowed_path line) ≠ none
      then false else is_allowed_loop url (headerStep a line) rest := by
  rw [is_allowed_loop]
  simp only [ne_none_iff_isSome_true]
  change (if isWildcardLine line = true then _ else if isAgentLine line = true then _
    else if a = true ∧ isDisallowLine line = true then _ else _) = _
  unfold headerStep
  by_cases hw : isWildcardLine line = true
  · have hag := isAgentLine_of_isWildcardLine line hw
    simp [hw, hag]
  · by_cases hag : isAgentLine line = true
    · simp [hw, hag]
    · by_cases ha : a = true
      · by_cases hd : isDisallowLine line = true
        · by_cases hf : (find url (disallowed_path line)).isSome = true
          · simp [hw, hag, ha, hd, hf]
          · simp [hw, hag, ha, hd, hf]
        · simp [hw, hag, ha, hd]
      · simp [hw, hag, ha]

theorem is_allowed_loop_eq_false_iff (url : Str) (lines : List Str) (a : Bool) :
    is_allowed_loop url a lines = false ↔
      ∃ pre line post, lines = pre ++ line :: post ∧ scopeAfter a pre = true ∧
        isAgentLine line = false ∧ isDisallowLine line = true ∧
        find url (disallowed_path line) ≠ none := by
  induction lines generalizing a with
  | nil => simp [is_allowed_loop]
  | cons l rest ih =>
    rw [is_allowed_loop_cons]
    constructor
    · intro h
      by_cases hc : isAgentLine l = false ∧ a = true ∧ isDisallowLine l = true ∧
          find url (disallowed_path l) ≠ none
      · exact ⟨[], l, rest, rfl, by simpa [scopeAfter_nil] using hc.2.1, hc.1, hc.2.2.1, hc.2.2.2⟩
      · rw [if_neg hc] at h
        obtain ⟨pre, line, post, hl, hs, h1, h2, h3⟩ := (ih _).mp h
        exact ⟨l :: pre, line, post, by simp [hl], by rw [scopeAfter_cons]; exact hs, h1, h2, h3⟩
    · rintro ⟨pre, line, post, hl, hs, h1, h2, h3⟩
      cases pre with
      | nil =>
        simp only [List.nil_append, List.cons.injEq] at hl
        obtain ⟨rfl, rfl⟩ := hl
        rw [scopeAfter_nil] at hs
        rw [if_pos ⟨h1, hs, h2, h3⟩]
      | cons l2 pre2 =>
        simp only [List.cons_append, List.cons.injEq] at hl
        obtain ⟨rfl, rfl⟩ := hl
        rw [scopeAfter_cons] at hs
        have := (ih (headerStep a l)).mpr ⟨pre2, line, post, rfl, hs, h1, h2, h3⟩
        split
        · rfl
        · exact this

theorem getlines_eq_nil_iff (s : Str) : getlines s = [] ↔ s = [] := by
  cases s with
  | nil => simp [getlines]
  | cons c cs =>
    rw [getlines]
    by_cases hc : c = '\n'
    · simp [hc]
    · rw [if_neg hc]
      cases getlines cs <;> simp

theorem getlines_line_newline (l rest : Str) (hn : '\n' ∉ l) :
    getlines (l ++ '\n' :: rest) = l :: getlines rest := by
  induction l with
  | nil => simp [getlines]
  | cons c l ih =>
    have hc : c ≠ '\n' := fun h => hn (by simp [h])
    have hl : '\n' ∉ l := fun h => hn (List.mem_cons_of_mem _ h)
    rw [List.cons_append, getlines, if_neg hc, ih hl]

theorem getlines_line_end (l : Str) (hn : '\n' ∉ l) (hne : l ≠ []) : getlines l = [l] := by
  induction l with
  | nil => exact absurd rfl hne
  | cons c l ih =>
    have hc : c ≠ '\n' := fun h => hn (by simp [h])
    have hl : '\n' ∉ l := fun h => hn (List.mem_cons_of_mem _ h)
    rw [getlines, if_neg hc]
    cases l with
    | nil => simp [getlines]
    | cons d l => rw [ih hl (by simp)]

theorem getlines_unlines_append (ls : List Str) (rest : Str) (h : ∀ l ∈ ls, '\n' ∉ l) :
    getlines (unlines ls ++ rest) = ls ++ getlines rest := by
  induction ls with
  | nil => simp [unlines]
  | cons l ls ih =>
    have hl : '\n' ∉ l := h l (List.mem_cons_self _ _)
    have hls : ∀ m ∈ ls, '\n' ∉ m := fun m hm => h m (List.mem_cons_of_mem _ hm)
    have hsplit : unlines (l :: ls) ++ rest = l ++ '\n' :: (unlines ls ++ rest) := by
      simp [unlines]
    rw [hsplit, getlines_line_newline _ _ hl, ih hls]
    rfl

theorem getlines_cons_split (doc l : Str) (post : List Str) (h : getlines doc = l :: post) :
    '\n' ∉ l ∧ ((doc = l ∧ post = []) ∨ ∃ c, doc = l ++ '\n' :: c ∧ getlines c = post) := by
  induction doc generalizing l post with
  | nil => simp [getlines] at h
  | cons ch cs ih =>
    rw [getlines] at h
    by_cases hc : ch = '\n'
    · rw [if_pos hc] at h
      simp only [List.cons.injEq] at h
      obtain ⟨rfl, rfl⟩ := h
      exact ⟨by simp, Or.inr ⟨cs, by simp [hc], rfl⟩⟩
    · rw [if_neg hc] at h
      cases hg : getlines cs with
      | nil =>
        rw [hg] at h
        simp only [List.cons.injEq] at h
        obtain ⟨rfl, rfl⟩ := h
        have hcs : cs = [] := (getlines_eq_nil_iff cs).mp hg
        subst hcs
        exact ⟨by simpa using Ne.symm hc, Or.inl ⟨rfl, rfl⟩⟩
      | cons l2 ls =>
        rw [hg] at h
        simp only [List.cons.injEq] at h
        obtain ⟨rfl, rfl⟩ := h
        obtain ⟨hn, hrest⟩ := ih l2 ls hg
        refine ⟨?_, ?_⟩
        · intro hmem
          rcases List.mem_cons.mp hmem with h1 | h1
          · exact hc h1.symm
          · exact hn h1
        · rcases hrest with ⟨h1, h2⟩ | ⟨c, h1, h2⟩
          · exact Or.inl ⟨by rw [h1], h2⟩
          · exact Or.inr ⟨c, by rw [h1]; rfl, h2⟩

theorem getlines_split (pre : List Str) (doc line : Str) (post : List Str)
    (h : getlines doc = pre ++ line :: post) :
    (∀ l ∈ pre, '\n' ∉ l) ∧ '\n' ∉ line ∧
      ∃ rest, doc = unlines pre ++ line ++ rest ∧ (rest = [] ∨ rest.head? = some '\n') := by
  induction pre generalizing doc with
  | nil =>
    obtain ⟨hn, hrest⟩ := getlines_cons_split doc line post h
    refine ⟨by simp, hn, ?_⟩
    rcases hrest with ⟨h1, _⟩ | ⟨c, h1, _⟩
    · exact ⟨[], by simp [unlines, h1], Or.inl rfl⟩
    · exact ⟨'\n' :: c, by simp [unlines, h1], Or.inr rfl⟩
  | cons p pre ih =>
    obtain ⟨hn, hrest⟩ := getlines_cons_split doc p (pre ++ line :: post) h
    rcases hrest with ⟨_, h2⟩ | ⟨c, h1, h2⟩
    · simp at h2
    · obtain ⟨hpre, hline, rest, hdoc, hr⟩ := ih c h2
      refine ⟨?_, hline, rest, ?_, hr⟩
      · intro l hl
        rcases List.mem_cons.mp hl with h3 | h3
        · rw [h3]
          exact hn
        · exact hpre l h3
      · rw [h1, hdoc]
        simp [unlines]

/-! ## The first occurrence of a text -/

theorem not_infix_dropLast (needle : Str) (hne : needle ≠ []) : ¬ needle <:+: needle.dropLast := by
  intro h
  have h1 := h.length_le
  have h2 : 0 < needle.length := List.length_pos.mpr hne
  rw [List.length_dropLast] at h1
  omega

theorem find_first_occurrence (needle : Str) (hne : needle ≠ []) (x y : Str)
    (hfirst : ¬ needle <:+: x ++ needle.dropLast) :
    find (x ++ needle ++ y) needle = some x.length := by
  induction x with
  | nil =>
    have hp : needle <+: [] ++ needle ++ y := by simp
    have h0 := (find_eq_zero_iff ([] ++ needle ++ y) needle).mpr hp
    simpa using h0
  | cons c x ih =>
    have hnp : ¬ needle.isPrefixOf (c :: (x ++ needle ++ y)) = true := by
      intro hp
      have hp1 : needle <+: c :: x ++ needle ++ y := by
        simpa using List.isPrefixOf_iff_prefix.mp hp
      have hp2 : c :: x ++ needle.dropLast <+: c :: x ++ needle ++ y := by
        rw [List.append_assoc]
        exact (List.prefix_append_right_inj _).mpr
          ((List.dropLast_prefix needle).trans (List.prefix_append _ _))
      have hlen : needle.length ≤ (c :: x ++ needle.dropLast).length := by
        have h2 : 0 < needle.length := List.length_pos.mpr hne
        simp only [List.length_append, List.length_cons, List.length_dropLast]
        omega
      exact hfirst (List.prefix_of_prefix_length_le hp1 hp2 hlen).isInfix
    have hrec : ¬ needle <:+: x ++ needle.dropLast := fun h =>
      hfirst (by
        rw [List.cons_append]
        exact List.infix_cons_iff.mpr (Or.inr h))
    have hx : c :: x ++ needle ++ y = c :: (x ++ needle ++ y) := by simp
    rw [hx, find, if_neg hnp, ih hrec]
    simp

theorem find_eq_some_split (needle : Str) (hne : needle ≠ []) (s : Str) (k : Nat)
    (h : find s needle = some k) :
    ∃ x y, s = x ++ needle ++ y ∧ x.length = k ∧ ¬ needle <:+: x ++ needle.dropLast := by
  induction s generalizing k with
  | nil =>
    cases needle with
    | nil => exact absurd rfl hne
    | cons a n => simp [find] at h
  | cons c cs ih =>
    rw [find] at h
    by_cases hp : needle.isPrefixOf (c :: cs) = true
    · rw [if_pos hp] at h
      simp only [Option.some.injEq] at h
      obtain ⟨y, hy⟩ := List.isPrefixOf_iff_prefix.mp hp
      exact ⟨[], y, by simpa using hy.symm, by simpa using h, by
        simpa using not_infix_dropLast needle hne⟩
    · rw [if_neg hp] at h
      cases hf : find cs needle with
      | none => simp [hf] at h
      | some k2 =>
        rw [hf] at h
        simp only [Option.map_some', Option.some.injEq] at h
        obtain ⟨x, y, hs, hlen, hfirst⟩ := ih k2 hf
        refine ⟨c :: x, y, by simp [hs], by simp [hlen, h], ?_⟩
        intro hin
        rw [List.cons_append] at hin
        rcases List.infix_cons_iff.mp hin with h1 | h1
        · apply hp
          apply List.isPrefixOf_iff_prefix.mpr
          have hp2 : c :: (x ++ needle.dropLast) <+: c :: cs := by
            rw [hs, List.append_assoc]
            exact (List.prefix_cons_inj c).mpr ((List.prefix_append_right_inj _).mpr
              ((List.dropLast_prefix needle).trans (List.prefix_append _ _)))
          exact h1.trans hp2
        · exact hfirst h1

theorem contains_blank_tab (c : Char) : " \t".toList.contains c = isBlank c := by
  unfold isBlank
  cases h1 : c == ' ' <;> cases h2 : c == '\t' <;> simp [List.contains, List.elem, h1, h2]

theorem disallowed_path_eq (x y : Str)
    (hfirst : ¬ "Disallow:".toList <:+: x ++ "Disallow".toList) :
    disallowed_path (x ++ "Disallow:".toList ++ y) = y.dropWhile isBlank := by
  have hf := find_first_occurrence "Disallow:".toList (by decide) x y hfirst
  unfold disallowed_path
  rw [hf, erase_find_first_not_of]
  simp only [Option.getD_some, substr]
  have hdrop : List.drop (x.length + 9) (x ++ "Disallow:".toList ++ y) = y := by
    have hl : (x ++ "Disallow:".toList).length = x.length + 9 := by
      rw [List.length_append]
      rfl
    rw [← hl]
    exact List.drop_left _ _
  rw [hdrop]
  congr 1
  funext c
  exact contains_blank_tab c

/-! ## The gate read on the text of the policy document -/

theorem isAgentLine_eq_false_iff (line : Str) :
    isAgentLine line = false ↔ ¬ "User-agent:".toList <:+: line := by
  rw [← find_ne_none_iff]
  unfold isAgentLine
  cases find line "User-agent:".toList <;> simp

theorem isWildcardLine_iff (line : Str) :
    isWildcardLine line = true ↔ "User-agent: *".toList <:+: line := by
  rw [← find_ne_none_iff]
  unfold isWildcardLine
  cases find line "User-agent: *".toList <;> simp

theorem isDisallowLine_iff (line : Str) :
    isDisallowLine line = true ↔ "Disallow:".toList <:+: line := by
  rw [← find_ne_none_iff]
  unfold isDisallowLine
  cases find line "Disallow:".toList <;> simp

theorem scopeAfter_of_header (a : Bool) (before : List Str) (header : Str) (between : List Str)
    (hheader : isWildcardLine header = true)
    (hbetween : ∀ l ∈ between, isAgentLine l = false) :
    scopeAfter a (before ++ header :: between) = true := by
  induction before generalizing a with
  | nil =>
    rw [List.nil_append, scopeAfter_cons]
    have hstep : headerStep a header = true := by
      unfold headerStep
      simp [hheader]
    rw [hstep]
    clear hstep
    induction between with
    | nil => rfl
    | cons l ls ih =>
      have hl : isAgentLine l = false := hbetween l (List.mem_cons_self _ _)
      have hw : isWildcardLine l = false := by
        cases hw : isWildcardLine l with
        | false => rfl
        | true =>
          rw [isAgentLine_of_isWildcardLine l hw] at hl
          exact absurd hl (by decide)
      rw [scopeAfter_cons]
      have hstep : headerStep true l = true := by
        unfold headerStep
        simp [hl, hw]
      rw [hstep]
      exact ih (fun m hm => hbetween m (List.mem_cons_of_mem _ hm))
  | cons p before ih =>
    rw [List.cons_append, scopeAfter_cons]
    exact ih _

theorem scopeAfter_true_split (pre : List Str) (a : Bool) (h : scopeAfter a pre = true) :
    (a = true ∧ ∀ l ∈ pre, isAgentLine l = false) ∨
      ∃ before header between, pre = before ++ header :: between ∧
        isWildcardLine header = true ∧ ∀ l ∈ between, isAgentLine l = false := by
  induction pre generalizing a with
  | nil =>
    rw [scopeAfter_nil] at h
    exact Or.inl ⟨h, by simp⟩
  | cons p pre ih =>
    rw [scopeAfter_cons] at h
    rcases ih _ h with ⟨hstep, hall⟩ | ⟨before, header, between, hpre, hw, hb⟩
    · by_cases hw : isWildcardLine p = true
      · exact Or.inr ⟨[], p, pre, rfl, hw, hall⟩
      · by_cases hag : isAgentLine p = true
        · unfold headerStep at hstep
          simp [hw, hag] at hstep
        · have ha : a = true := by
            unfold headerStep at hstep
            simpa [hw, hag] using hstep
          refine Or.inl ⟨ha, ?_⟩
          intro l hl
          rcases List.mem_cons.mp hl with h1 | h1
          · rw [h1]
            simpa using hag
          · exact hall l h1
    · exact Or.inr ⟨p :: before, header, between, by simp [hpre], hw, hb⟩

/-- The gate refuses a URL when the policy document holds, after a line with
the text `User-agent: *` and lines without the text `User-agent:`, a line
without that text whose first `Disallow:` is followed, blanks and tabs
skipped, by a text that occurs in the URL. -/
theorem is_allowed_false_of_text (doc url : Str) (before : List Str) (header : Str)
    (between : List Str) (x y rest : Str)
    (hdoc : doc = unlines (before ++ header :: between) ++ (x ++ "Disallow:".toList ++ y) ++ rest)
    (hlines : ∀ l ∈ before ++ header :: between, '\n' ∉ l)
    (hx : '\n' ∉ x) (hy : '\n' ∉ y)
    (hrest : rest = [] ∨ rest.head? = some '\n')
    (hheader : "User-agent: *".toList <:+: header)
    (hbetween : ∀ l ∈ between, ¬ "User-agent:".toList <:+: l)
    (hline : ¬ "User-agent:".toList <:+: x ++ "Disallow:".toList ++ y)
    (hfirst : ¬ "Disallow:".toList <:+: x ++ "Disallow".toList)
    (hurl : y.dropWhile isBlank <:+: url) :
    is_allowed doc url = false := by
  have hnl : '\n' ∉ x ++ "Disallow:".toList ++ y := by
    intro hmem
    rcases List.mem_append.mp hmem with h1 | h1
    · rcases List.mem_append.mp h1 with h2 | h2
      · exact hx h2
      · exact absurd h2 (by decide)
    · exact hy h1
  have hne : x ++ "Disallow:".toList ++ y ≠ [] := by simp
  have hget : ∃ post, getlines doc =
      (before ++ header :: between) ++ (x ++ "Disallow:".toList ++ y) :: post := by
    rcases hrest with hr | hr
    · refine ⟨[], ?_⟩
      rw [hdoc, hr, List.append_nil, getlines_unlines_append _ _ hlines,
        getlines_line_end _ hnl hne]
    · cases rest with
      | nil => simp at hr
      | cons c rest =>
        simp only [List.head?_cons, Option.some.injEq] at hr
        subst hr
        refine ⟨getlines rest, ?_⟩
        rw [hdoc, List.append_assoc, getlines_unlines_append _ _ hlines,
          getlines_line_newline _ _ hnl]
  obtain ⟨post, hpost⟩ := hget
  unfold is_allowed
  rw [is_allowed_loop_eq_false_iff]
  refine ⟨_, _, post, hpost, ?_, ?_, ?_, ?_⟩
  · exact scopeAfter_of_header false before header between ((isWildcardLine_iff _).mpr hheader)
      (fun l hl => (isAgentLine_eq_false_iff l).mpr (hbetween l hl))
  · exact (isAgentLine_eq_false_iff _).mpr hline
  · exact (isDisallowLine_iff _).mpr
      ⟨x, y, rfl⟩
  · rw [find_ne_none_iff, disallowed_path_eq x y hfirst]
    exact hurl

/-- The converse: when the gate refuses a URL, the policy document has the
shape described in `is_allowed_false_of_text`. -/
theorem text_of_is_allowed_false (doc url : Str) (h : is_allowed doc url = false) :
    ∃ (before : List Str) (header : Str) (between : List Str) (x y rest : Str),
      doc = unlines (before ++ header :: between) ++ (x ++ "Disallow:".toList ++ y) ++ rest ∧
      (∀ l ∈ before ++ header :: between, '\n' ∉ l) ∧ '\n' ∉ x ∧ '\n' ∉ y ∧
      (rest = [] ∨ rest.head? = some '\n') ∧
      "User-agent: *".toList <:+: header ∧
      (∀ l ∈ between, ¬ "User-agent:".toList <:+: l) ∧
      ¬ "User-agent:".toList <:+: x ++ "Disallow:".toList ++ y ∧
      ¬ "Disallow:".toList <:+: x ++ "Disallow".toList ∧
      y.dropWhile isBlank <:+: url := by
  unfold is_allowed at h
  obtain ⟨pre, line, post, hget, hscope, hag, hdis, hfind⟩ :=
    (is_allowed_loop_eq_false_iff url _ false).mp h
  obtain ⟨hpre, hnl, rest, hdoc, hrest⟩ := getlines_split pre doc line post hget
  rcases scopeAfter_true_split pre false hscope with ⟨hf, _⟩ | ⟨before, header, between, hsplit, hw, hb⟩
  · exact absurd hf (by decide)
  · have hsome : ∃ k, find line "Disallow:".toList = some k := by
      unfold isDisallowLine at hdis
      exact Option.isSome_iff_exists.mp hdis
    obtain ⟨k, hk⟩ := hsome
    obtain ⟨x, y, hline, _, hfirst⟩ := find_eq_some_split "Disallow:".toList (by decide) line k hk
    have hfirst2 : ¬ "Disallow:".toList <:+: x ++ "Disallow".toList := hfirst
    subst hline
    subst hsplit
    refine ⟨before, header, between, x, y, rest, hdoc, hpre, ?_, ?_, hrest,
      (isWildcardLine_iff _).mp hw, fun l hl => (isAgentLine_eq_false_iff l).mp (hb l hl),
      (isAgentLine_eq_false_iff _).mp hag, hfirst2, ?_⟩
    · exact fun hm => hnl (List.mem_append_left _ (List.mem_append_left _ hm))
    · exact fun hm => hnl (List.mem_append_right _ hm)
    · rw [find_ne_none_iff, disallowed_path_eq x y hfirst2] at hfind
      exact hfind

/-! ## The gate: the claims -/

/-- C6, the claim as stated fails. In each of three policy documents the line
`Disallow: P` stands below the line `User-agent: *`, the path of the URL starts
with `P`, and `is_allowed` answers `true`: when `P` itself holds the text
`User-agent:` (the loop reads the line as an agent header), when a comment line
holding `User-agent:` stands between the two lines (the loop reads it as an
agent header closing the scope), and when the lines end in carriage return and
newline (the carriage return stays in the path the loop looks for). -/
theorem is_allowed_deny_counterexample :
    ("User-agent: *\nDisallow: /User-agent:\n".toList =
          unlines ["User-agent: *".toList, "Disallow: ".toList ++ "/User-agent:".toList] ∧
        "/User-agent:".toList <+: url_path "https://example.com/User-agent:/x".toList ∧
        is_allowed "User-agent: *\nDisallow: /User-agent:\n".toList
          "https://example.com/User-agent:/x".toList = true) ∧
      ("User-agent: *\n# not User-agent: Googlebot\nDisallow: /private\n".toList =
          unlines ["User-agent: *".toList, "# not User-agent: Googlebot".toList,
            "Disallow: ".toList ++ "/private".toList] ∧
        "/private".toList <+: url_path "https://example.com/private/a".toList ∧
        is_allowed "User-agent: *\n# not User-agent: Googlebot\nDisallow: /private\n".toList
          "https://example.com/private/a".toList = true) ∧
      is_allowed "User-agent: *\r\nDisallow: /private\r\n".toList
        "https://example.com/private/a".toList = true := by
  decide

/-- C6 (amended): let the policy document, read as lines closed by newline
characters only, hold a line with the text `User-agent: *`, then lines none of
which holds the text `User-agent:`, then the line `Disallow: P` with non-empty
`P` reaching to the newline character or to the end of the document, this line
not holding the text `User-agent:` either. When the path of the URL starts with
`P`, `is_allowed` answers `false`, and the worker iteration that pops the URL
only pops it: `scrape_url` is not called, nothing is fetched, saved or pushed. -/
theorem is_allowed_denies_disallowed_path (env : Env) (url P : Str)
    (before : List Str) (header : Str) (between : List Str) (rest : Str)
    (depth : Int) (s : CrawlState) (queue_rest : List (Str × Int))
    (hdoc : env.robots_txt_content =
      unlines (before ++ header :: between) ++ ("Disallow: ".toList ++ P) ++ rest)
    (hlines : ∀ l ∈ before ++ header :: between, '\n' ∉ l)
    (hPline : '\n' ∉ P)
    (hrest : rest = [] ∨ rest.head? = some '\n')
    (hheader : "User-agent: *".toList <:+: header)
    (hbetween : ∀ l ∈ between, ¬ "User-agent:".toList <:+: l)
    (hline : ¬ "User-agent:".toList <:+: "Disallow: ".toList ++ P)
    (hP : P ≠ [])
    (hpath : P <+: url_path url)
    (hqueue : s.url_queue = (url, depth) :: queue_rest) :
    is_allowed env.robots_txt_content url = false ∧
      worker_iter env s =
        some { s with url_queue := queue_rest, dequeued := s.dequeued ++ [(url, depth)] } := by
  have _ := hP
  have hshape : "Disallow: ".toList ++ P = [] ++ "Disallow:".toList ++ (' ' :: P) := rfl
  have hy : '\n' ∉ ' ' :: P := by
    intro hmem
    rcases List.mem_cons.mp hmem with h1 | h1
    · exact absurd h1 (by decide)
    · exact hPline h1
  have hdrop : (' ' :: P).dropWhile isBlank <:+: url := by
    rw [List.dropWhile_cons_of_pos (by decide)]
    exact ((List.dropWhile_suffix _).isInfix.trans hpath.isInfix).trans
      (url_path_suffix url).isInfix
  have hfalse : is_allowed env.robots_txt_content url = false :=
    is_allowed_false_of_text env.robots_txt_content url before header between [] (' ' :: P) rest
      (by rw [hdoc, hshape]) hlines (by simp) hy hrest hheader hbetween
      (by rw [← hshape]; exact hline) (by decide) hdrop
  refine ⟨hfalse, ?_⟩
  unfold worker_iter dequeue process
  simp [hqueue, hfalse]

/-- The amended C6 at a concrete site: robots.txt is the line `User-agent: *`
followed by the line `Disallow: /private`, the URL is
`https://example.com/private/a`, whose path is `/private/a`; the text the loop
looks for in the URL is `/private`. -/
theorem is_allowed_denies_disallowed_path_witness :
    (is_allowed privateEnv.robots_txt_content "https://example.com/private/a".toList = false ∧
      worker_iter privateEnv
          { main_init with url_queue := [("https://example.com/private/a".toList, 1)] } =
        some { main_init with
          url_queue := [],
          dequeued := [("https://example.com/private/a".toList, 1)] }) ∧
      url_path "https://example.com/private/a".toList = "/private/a".toList ∧
      disallowed_path "Disallow: /private".toList = "/private".toList :=
  ⟨is_allowed_denies_disallowed_path privateEnv "https://example.com/private/a".toList
      "/private".toList [] "User-agent: *".toList [] ['\n'] 1
      { main_init with url_queue := [("https://example.com/private/a".toList, 1)] } []
      (by decide) (by decide) (by decide) (by decide) (by decide) (by decide) (by decide)
      (by decide) (by decide) rfl,
    by decide, by decide⟩

/-- C7, the claim as stated fails: the policy document is the line
`User-agent: *` followed by the line `Disallow: /private`; the URL
`https://example.com/public/private` has the path `/public/private`, of which
`/private` is no prefix, and `is_allowed` answers `false`. -/
theorem is_allowed_substring_counterexample :
    "User-agent: *\nDisallow: /private\n".toList =
        unlines ["User-agent: *".toList, "Disallow: /private".toList] ∧
      url_path "https://example.com/public/private".toList = "/public/private".toList ∧
      ¬ "/private".toList <+: "/public/private".toList ∧
      is_allowed "User-agent: *\nDisallow: /private\n".toList
        "https://example.com/public/private".toList = false := by
  decide

/-- C7 (amended): `is_allowed` answers `false` exactly when the policy
document, read as lines closed by newline characters only, holds a line with
the text `User-agent: *`, then lines none of which holds the text
`User-agent:`, then a line (reaching to the newline character or to the end of
the document) that does not hold the text `User-agent:` and in which the first
`Disallow:` is followed, blanks and tabs skipped, by a text that occurs
somewhere in the URL string. A URL for which the document has no such line is
allowed. -/
theorem is_allowed_false_iff (doc url : Str) :
    is_allowed doc url = false ↔
      ∃ (before : List Str) (header : Str) (between : List Str) (x y rest : Str),
        doc = unlines (before ++ header :: between) ++ (x ++ "Disallow:".toList ++ y) ++ rest ∧
        (∀ l ∈ before ++ header :: between, '\n' ∉ l) ∧ '\n' ∉ x ∧ '\n' ∉ y ∧
        (rest = [] ∨ rest.head? = some '\n') ∧
        "User-agent: *".toList <:+: header ∧
        (∀ l ∈ between, ¬ "User-agent:".toList <:+: l) ∧
        ¬ "User-agent:".toList <:+: x ++ "Disallow:".toList ++ y ∧
        ¬ "Disallow:".toList <:+: x ++ "Disallow".toList ∧
        y.dropWhile isBlank <:+: url := by
  constructor
  · exact text_of_is_allowed_false doc url
  · rintro ⟨before, header, between, x, y, rest, h1, h2, h3, h4, h5, h6, h7, h8, h9, h10⟩
    exact is_allowed_false_of_text doc url before header between x y rest h1 h2 h3 h4 h5 h6 h7
      h8 h9 h10

/-- The amended C7 at the document made of the lines `User-agent: *` and
`Disallow: /private`: the text after `Disallow:`, its blank skipped, is
`/private`, which occurs in `https://example.com/public/private`, so the URL is
refused; it does not occur in `https://example.com/public`, which is allowed.
The loop reads the same two lines and looks for the same text. -/
theorem is_allowed_false_iff_witness :
    is_allowed "User-agent: *\nDisallow: /private\n".toList
        "https://example.com/public/private".toList = false ∧
      (¬ ∃ (before : List Str) (header : Str) (between : List Str) (x y rest : Str),
        "User-agent: *\nDisallow: /private\n".toList =
          unlines (before ++ header :: between) ++ (x ++ "Disallow:".toList ++ y) ++ rest ∧
        (∀ l ∈ before ++ header :: between, '\n' ∉ l) ∧ '\n' ∉ x ∧ '\n' ∉ y ∧
        (rest = [] ∨ rest.head? = some '\n') ∧
        "User-agent: *".toList <:+: header ∧
        (∀ l ∈ between, ¬ "User-agent:".toList <:+: l) ∧
        ¬ "User-agent:".toList <:+: x ++ "Disallow:".toList ++ y ∧
        ¬ "Disallow:".toList <:+: x ++ "Disallow".toList ∧
        y.dropWhile isBlank <:+: "https://example.com/public".toList) ∧
      getlines "User-agent: *\nDisallow: /private\n".toList =
        ["User-agent: *".toList, "Disallow: /private".toList] ∧
      disallowed_path "Disallow: /private".toList =
        " /private".toList.dropWhile isBlank :=
  ⟨(is_allowed_false_iff _ _).mpr
      ⟨[], "User-agent: *".toList, [], [], " /private".toList, ['\n'], by decide, by decide,
        by decide, by decide, by decide, by decide, by decide, by decide, by decide, by decide⟩,
    fun h => absurd ((is_allowed_false_iff _ _).mpr h) (by decide),
    by decide, by decide⟩

theorem isAbsoluteUrl_base_url (t : Str) : isAbsoluteUrl (base_url ++ t) = true := rfl

theorem find_scheme_mark_of_http (u : Str)
    (h : (find u "http://".toList = some 0 || find u "https://".toList = some 0) = true) :
    "://".toList <:+: u := by
  simp only [Bool.or_eq_true, decide_eq_true_eq] at h
  rcases h with h | h
  · exact (show "://".toList <:+: "http://".toList by decide).trans
      ((find_eq_zero_iff _ _).mp h).isInfix
  · exact (show "://".toList <:+: "https://".toList by decide).trans
      ((find_eq_zero_iff _ _).mp h).isInfix

theorem normalize_url_slash (t : Str) : normalize_url ('/' :: t) = base_url ++ t := by
  have h1 : find ('/' :: t) "http://".toList ≠ some 0 := by
    rw [Ne, find_eq_zero_iff]
    rintro ⟨r, hr⟩
    exact absurd (List.head_eq_of_cons_eq hr) (by decide)
  have h2 : find ('/' :: t) "https://".toList ≠ some 0 := by
    rw [Ne, find_eq_zero_iff]
    rintro ⟨r, hr⟩
    exact absurd (List.head_eq_of_cons_eq hr) (by decide)
  have h12 : ¬ (find ('/' :: t) "http://".toList = some 0 ||
      find ('/' :: t) "https://".toList = some 0) = true := by
    simp only [Bool.or_eq_true, decide_eq_true_eq]
    rintro (h | h)
    · exact h1 h
    · exact h2 h
  unfold normalize_url
  rw [if_neg (by simp), if_neg h12, if_pos (show ('/' :: t).head? = some '/' from rfl)]
  rfl

theorem normalize_url_mark (u : Str) (hne : u ≠ []) (hhead : u.head? ≠ some '/')
    (hmark : "://".toList <:+: u) : normalize_url u = u := by
  have hemp : u.isEmpty = false := by
    cases u with
    | nil => exact absurd rfl hne
    | cons c cs => rfl
  have hfind : find u "://".toList ≠ none := (find_ne_none_iff _ _).mpr hmark
  unfold normalize_url
  rw [hemp]
  simp only [Bool.false_eq_true, if_false]
  by_cases h1 : (find u "http://".toList = some 0 || find u "https://".toList = some 0) = true
  · rw [if_pos h1]
  · rw [if_neg h1, if_neg hhead, if_pos hfind]

theorem normalize_url_plain (u : Str) (hne : u ≠ []) (hhead : u.head? ≠ some '/')
    (hmark : ¬ "://".toList <:+: u) : normalize_url u = base_url ++ u := by
  have hemp : u.isEmpty = false := by
    cases u with
    | nil => exact absurd rfl hne
    | cons c cs => rfl
  have hfind : ¬ find u "://".toList ≠ none := fun h => hmark ((find_ne_none_iff _ _).mp h)
  have h1 : ¬ (find u "http://".toList = some 0 || find u "https://".toList = some 0) = true :=
    fun h => hmark (find_scheme_mark_of_http u h)
  unfold normalize_url
  rw [hemp]
  simp only [Bool.false_eq_true, if_false]
  rw [if_neg h1, if_neg hhead, if_neg hfind]

theorem isAbsoluteUrl_normalize_url (u : Str) (hne : u ≠ []) :
    isAbsoluteUrl (normalize_url u) = true ↔
      (u.head? = some '/' ∨ ¬ "://".toList <:+: u ∨ isAbsoluteUrl u = true) := by
  by_cases hhead : u.head? = some '/'
  · cases u with
    | nil => exact absurd rfl hne
    | cons c t =>
      simp only [List.head?_cons, Option.some.injEq] at hhead
      subst hhead
      rw [normalize_url_slash]
      simp [isAbsoluteUrl_base_url]
  · by_cases hmark : "://".toList <:+: u
    · rw [normalize_url_mark u hne hhead hmark]
      constructor
      · exact fun h => Or.inr (Or.inr h)
      · rintro (h | h | h)
        · exact absurd h hhead
        · exact absurd hmark h
        · exact h
    · rw [normalize_url_plain u hne hhead hmark]
      constructor
      · exact fun _ => Or.inr (Or.inl hmark)
      · exact fun _ => isAbsoluteUrl_base_url u

/-- C9, the claim as stated fails: the relative link `go?to=http://x.org` holds
`://`, so `normalize_url` returns it unchanged, and it does not begin with a
scheme followed by `://`. -/
theorem normalize_url_unresolved_counterexample :
    "go?to=http://x.org".toList ≠ [] ∧
      normalize_url "go?to=http://x.org".toList = "go?to=http://x.org".toList ∧
      isAbsoluteUrl (normalize_url "go?to=http://x.org".toList) = false := by
  decide

/-- C9 (amended): for a non-empty link string `u`, `normalize_url u` is
`base_url` followed by `u` without its first character when `u` begins with
`/`; otherwise it is `u` itself when the text `://` occurs somewhere in `u`
(so also when `u` begins with `http://` or `https://`), and `base_url` followed
by `u` when `://` does not occur in `u`. Hence `normalize_url u` is an absolute
URL exactly when `u` begins with `/`, or holds no `://`, or is absolute
already; a relative `u` that holds `://` and does not begin with `/` is
returned unresolved. Every link `extract_links` returns for a page is absolute
when every `href` value of the page is non-empty and begins with `/`, holds no
`://`, or is absolute. -/
theorem normalize_url_absolute (env : Env) (html : Str) (u : Str) (hne : u ≠ []) :
    (∀ t, u = '/' :: t → normalize_url u = base_url ++ t) ∧
      (u.head? ≠ some '/' → "://".toList <:+: u → normalize_url u = u) ∧
      (u.head? ≠ some '/' → ¬ "://".toList <:+: u → normalize_url u = base_url ++ u) ∧
      (isAbsoluteUrl (normalize_url u) = true ↔
        (u.head? = some '/' ∨ ¬ "://".toList <:+: u ∨ isAbsoluteUrl u = true)) ∧
      ((∀ href ∈ env.hrefs html, href ≠ [] ∧
            (href.head? = some '/' ∨ ¬ "://".toList <:+: href ∨ isAbsoluteUrl href = true)) →
        ∀ link ∈ extract_links env html, isAbsoluteUrl link = true) := by
  refine ⟨?_, normalize_url_mark u hne, normalize_url_plain u hne,
    isAbsoluteUrl_normalize_url u hne, ?_⟩
  · rintro t rfl
    exact normalize_url_slash t
  · intro hall link hlink
    unfold extract_links at hlink
    obtain ⟨href, hmem, rfl⟩ := List.mem_map.mp hlink
    exact (isAbsoluteUrl_normalize_url href (hall href hmem).1).mpr (hall href hmem).2

/-- The amended C9 at the links `/jobs/1` (resolved to
`https://example.com/jobs/1`), `jobs/2` (resolved to
`https://example.com/jobs/2`), `/x?u=http://y` (resolved although it holds
`://`) and `go?to=http://x.org` (returned unchanged), and at a page whose two
links are `/a`, both returned as `https://example.com/a`. -/
theorem normalize_url_absolute_witness :
    normalize_url "/jobs/1".toList = "https://example.com/jobs/1".toList ∧
      normalize_url "jobs/2".toList = "https://example.com/jobs/2".toList ∧
      normalize_url "/x?u=http://y".toList = "https://example.com/x?u=http://y".toList ∧
      normalize_url "go?to=http://x.org".toList = "go?to=http://x.org".toList ∧
      (∀ link ∈ extract_links twinLinkEnv [], isAbsoluteUrl link = true) ∧
      extract_links twinLinkEnv [] =
        ["https://example.com/a".toList, "https://example.com/a".toList] :=
  ⟨(normalize_url_absolute twinLinkEnv [] "/jobs/1".toList (by decide)).1 "jobs/1".toList rfl,
    (normalize_url_absolute twinLinkEnv [] "jobs/2".toList (by decide)).2.2.1
      (by decide) (by decide),
    (normalize_url_absolute twinLinkEnv [] "/x?u=http://y".toList (by decide)).1
      "x?u=http://y".toList rfl,
    (normalize_url_absolute twinLinkEnv [] "go?to=http://x.org".toList (by decide)).2.1
      (by decide) (by decide),
    (normalize_url_absolute twinLinkEnv [] "/a".toList (by decide)).2.2.2.2 (by decide),
    by decide⟩

/-! ## `scrape_url` -/

theorem foldl_url_queue_push (depth : Int) (links : List Str) (s : CrawlState) :
    links.foldl (fun s link => url_queue_push s link depth) s =
      { s with url_queue := s.url_queue ++ links.map (fun link => (link, depth + 1)) } := by
  induction links generalizing s with
  | nil => simp
  | cons l ls ih =>
    rw [List.foldl_cons, ih]
    simp [url_queue_push]

theorem curl_easy_perform_eq (t : Transfer) (html_content : Str) :
    curl_easy_perform t html_content = html_content ++ t.delivered.flatten := by
  unfold curl_easy_perform
  generalize t.delivered = blocks
  induction blocks generalizing html_content with
  | nil => simp
  | cons b bs ih =>
    rw [List.foldl_cons, ih]
    simp [WriteCallback]

theorem scrape_url_loop_all_fail (env : Env) (url : Str) (depth : Int)
    (hfail : ∀ i, (env.perform url i).res_ok = false) (k retries : Nat) (html_content : Str)
    (s : CrawlState) :
    scrape_url_loop env url depth k retries html_content s =
      { s with performed := s.performed ++ List.replicate k url } := by
  induction k generalizing retries html_content s with
  | zero => simp [scrape_url_loop]
  | succ k ih =>
    rw [scrape_url_loop]
    simp only [hfail, Bool.false_eq_true, if_false]
    rw [ih]
    simp [List.replicate_succ]

theorem scrape_url_loop_success (env : Env) (url : Str) (depth : Int) (j : Nat) :
    ∀ (k retries : Nat) (html_content : Str) (s : CrawlState), j < k →
      (∀ i < j, (env.perform url (retries + i)).res_ok = false) →
      (env.perform url (retries + j)).res_ok = true →
      scrape_url_loop env url depth k retries html_content s =
        scraped env url depth s (j + 1)
          (html_content ++
            ((List.range (j + 1)).map (fun i => delivered_bytes env url (retries + i))).flatten) := by
  induction j with
  | zero =>
    intro k retries html_content s hk _ hok
    obtain ⟨k, rfl⟩ : ∃ k0, k = k0 + 1 := ⟨k - 1, by omega⟩
    rw [scrape_url_loop]
    simp only [Nat.add_zero] at hok
    have hrange : List.range (0 + 1) = [0] := rfl
    simp [hok, foldl_url_queue_push, curl_easy_perform_eq, scraped, delivered_bytes, hrange]
  | succ j ih =>
    intro k retries html_content s hk hfail hok
    obtain ⟨k, rfl⟩ : ∃ k0, k = k0 + 1 := ⟨k - 1, by omega⟩
    have h0 : (env.perform url retries).res_ok = false := by
      simpa using hfail 0 (Nat.succ_pos j)
    rw [scrape_url_loop]
    simp only [h0, Bool.false_eq_true, if_false]
    rw [ih k (retries + 1) _ _ (by omega)
      (fun i hi => by
        have := hfail (i + 1) (by omega)
        rwa [show retries + (i + 1) = retries + 1 + i by omega] at this)
      (by rwa [show retries + (j + 1) = retries + 1 + j by omega] at hok)]
    have hrange : (List.range (j + 1 + 1)).map (fun i => delivered_bytes env url (retries + i)) =
        delivered_bytes env url retries ::
          (List.range (j + 1)).map (fun i => delivered_bytes env url (retries + 1 + i)) := by
      rw [List.range_succ_eq_map, List.map_cons, List.map_map]
      congr 1
      apply List.map_congr_left
      intro i _
      simp only [Function.comp, Nat.succ_eq_add_one]
      rw [show retries + (i + 1) = retries + 1 + i by omega]
    rw [hrange, List.flatten_cons, curl_easy_perform_eq]
    simp [scraped, delivered_bytes, List.replicate_succ]

/-- C5, the claim as stated fails: called as the worker calls it, with
`max_retries = 3`, on a transport that fails every transfer, `scrape_url` makes
three fetch attempts, not `max_retries + 1 = 4`. -/
theorem scrape_url_attempts_counterexample :
    (∀ i, (failingEnv.perform initial_url i).res_ok = false) ∧
      (scrape_url failingEnv initial_url 0 3 main_init).performed.length = 3 ∧
      (scrape_url failingEnv initial_url 0 3 main_init).performed.length ≠ 3 + 1 := by
  refine ⟨fun _ => rfl, ?_, ?_⟩ <;> decide

/-- C5 (amended): for every `max_retries >= 0` and every URL, when every
transfer returns an error, `scrape_url` makes exactly `max_retries` fetch
attempts and then returns, leaving the queue, the saved records and every
other part of the state as they were. -/
theorem scrape_url_retry_exhaustion (env : Env) (url : Str) (depth : Int) (max_retries : Int)
    (s : CrawlState) (hmax : 0 ≤ max_retries)
    (hfail : ∀ i, (env.perform url i).res_ok = false) :
    scrape_url env url depth max_retries s =
        { s with performed := s.performed ++ List.replicate max_retries.toNat url } ∧
      (((scrape_url env url depth max_retries s).performed.length : Int) =
        s.performed.length + max_retries) := by
  have h := scrape_url_loop_all_fail env url depth hfail max_retries.toNat 0 [] s
  unfold scrape_url
  rw [h]
  refine ⟨rfl, ?_⟩
  simp [Int.toNat_of_nonneg hmax]

/-- The amended C5 at the call the worker makes, `max_retries = 3`, on a
transport that always fails. -/
theorem scrape_url_retry_exhaustion_witness :
    scrape_url failingEnv initial_url 0 3 main_init =
        { main_init with performed := [initial_url, initial_url, initial_url] } ∧
      (((scrape_url failingEnv initial_url 0 3 main_init).performed.length : Int) = 0 + 3) :=
  scrape_url_retry_exhaustion failingEnv initial_url 0 3 main_init (by decide) (fun _ => rfl)

/-- C10: when the attempts numbered `0` to `k - 1` on a URL fail and the attempt
numbered `k` succeeds (and the loop reaches it, `k < max_retries`), `scrape_url`
makes `k + 1` transfers and the body it hands to `parse_html` and
`extract_links` is the concatenation, in attempt order, of the bytes delivered
to `WriteCallback` by all `k + 1` attempts, the failed ones included. -/
theorem scrape_url_body_accumulates (env : Env) (url : Str) (depth : Int) (max_retries : Int)
    (s : CrawlState) (k : Nat) (hk : (k : Int) < max_retries)
    (hfail : ∀ i < k, (env.perform url i).res_ok = false)
    (hok : (env.perform url k).res_ok = true) :
    scrape_url env url depth max_retries s =
      scraped env url depth s (k + 1) (attempts_body env url k) := by
  unfold scrape_url
  rw [scrape_url_loop_success env url depth k max_retries.toNat 0 [] s (by omega)
    (fun i hi => by simpa using hfail i hi) (by simpa using hok)]
  simp [attempts_body]

/-- C10 at a transport whose first two transfers fail after delivering `ab` and
`cd` and whose third succeeds delivering `e` and `f`: the body parsed is
`abcdef`. -/
theorem scrape_url_body_accumulates_witness :
    attempts_body flakyEnv initial_url 2 = "abcdef".toList ∧
      scrape_url flakyEnv initial_url 0 3 main_init =
        scraped flakyEnv initial_url 0 main_init 3 (attempts_body flakyEnv initial_url 2) :=
  ⟨by decide,
    scrape_url_body_accumulates flakyEnv initial_url 0 3 main_init 2 (by decide)
      (by decide) (by decide)⟩

/-! ## The queue and the worker loop -/

/-- C1, what the code does: pushing the same link twice in sequence appends two
entries to `url_queue`, and `visited_urls` is never written; so a page that
links twice to `/a` leaves `https://example.com/a` twice in the queue. -/
theorem url_queue_push_twice (s : CrawlState) (link : Str) (depth : Int) :
    (url_queue_push (url_queue_push s link depth) link depth).url_queue =
        s.url_queue ++ [(link, depth + 1), (link, depth + 1)] ∧
      (url_queue_push (url_queue_push s link depth) link depth).visited_urls = s.visited_urls ∧
      (scrape_url twinLinkEnv initial_url 0 3 { main_init with url_queue := [] }).url_queue =
        [("https://example.com/a".toList, 1), ("https://example.com/a".toList, 1)] ∧
      (scrape_url twinLinkEnv initial_url 0 3 { main_init with url_queue := [] }).visited_urls =
        [] := by
  refine ⟨by simp [url_queue_push], rfl, by decide, by decide⟩

/-- C2, what the code does: on a site whose pages link to `/`, the seventh entry
a single worker pops from the queue `main` prepared has depth 6, above
`max_depth = 5`. -/
theorem worker_dequeues_beyond_max_depth :
    (worker_after selfLinkEnv 7 main_init).map (fun s => s.dequeued) =
        some [(initial_url, 0), (initial_url, 1), (initial_url, 2), (initial_url, 3),
          (initial_url, 4), (initial_url, 5), (initial_url, 6)] ∧
      max_depth < 6 := by
  decide

theorem worker_iter_selfLink (s : CrawlState) (d : Int)
    (hq : s.url_queue = [(initial_url, d)]) :
    ∃ s1, worker_iter selfLinkEnv s = some s1 ∧ s1.url_queue = [(initial_url, d + 1)] ∧
      s1.dequeued = s.dequeued ++ [(initial_url, d)] := by
  have hallow : is_allowed selfLinkEnv.robots_txt_content initial_url = true := by decide
  have hnorm : normalize_url ['/'] = initial_url := by decide
  unfold worker_iter dequeue process
  rw [hq]
  simp only [hallow, Bool.not_true, Bool.false_eq_true, if_false]
  unfold scrape_url
  rw [scrape_url_loop_success selfLinkEnv initial_url d 0 (3 : Int).toNat 0 [] _ (by decide)
    (fun i hi => absurd hi (Nat.not_lt_zero i)) rfl]
  refine ⟨_, rfl, ?_, rfl⟩
  simp [scraped, extract_links, selfLinkEnv, hnorm]

theorem worker_after_selfLink (n : Nat) : ∀ (s : CrawlState) (d : Int),
    s.url_queue = [(initial_url, d)] →
    ∃ s1, worker_after selfLinkEnv n s = some s1 ∧ s1.url_queue = [(initial_url, d + n)] ∧
      s1.dequeued.length = s.dequeued.length + n := by
  induction n with
  | zero =>
    intro s d hq
    exact ⟨s, rfl, by simpa using hq, rfl⟩
  | succ n ih =>
    intro s d hq
    obtain ⟨s1, h1, hq1, hd1⟩ := worker_iter_selfLink s d hq
    obtain ⟨s2, h2, hq2, hd2⟩ := ih s1 (d + 1) hq1
    refine ⟨s2, ?_, ?_, ?_⟩
    · rw [worker_after, h1]
      exact h2
    · rw [hq2]
      push_cast
      congr 2
      ring
    · rw [hd2, hd1]
      simp
      ring

theorem worker_selfLink_none (fuel : Nat) : ∀ (s : CrawlState) (d : Int),
    s.url_queue = [(initial_url, d)] → worker selfLinkEnv fuel s = none := by
  induction fuel with
  | zero =>
    intro s d _
    rfl
  | succ fuel ih =>
    intro s d hq
    obtain ⟨s1, h1, hq1, _⟩ := worker_iter_selfLink s d hq
    rw [worker, h1]
    exact ih s1 (d + 1) hq1

/-- C3, what the code does: with one worker, an empty robots.txt, a transport
that always succeeds and a seed page whose only link is the seed URL, the worker
loop never reaches its `break`: whatever the number of iterations allowed it is
still running, and after `n` iterations it has popped `n` entries and the queue
holds the seed URL again, at depth `n`. -/
theorem worker_self_link_never_exits (n : Nat) :
    extract_links selfLinkEnv [] = [initial_url] ∧
      worker selfLinkEnv n main_init = none ∧
      ∃ s, worker_after selfLinkEnv n main_init = some s ∧
        s.url_queue = [(initial_url, (n : Int))] ∧ s.dequeued.length = n := by
  refine ⟨by decide, worker_selfLink_none n main_init 0 rfl, ?_⟩
  obtain ⟨s, h, hq, hd⟩ := worker_after_selfLink n main_init 0 rfl
  refine ⟨s, h, by simpa using hq, by simpa [main_init] using hd⟩

/-! ## The pool of workers -/

end Mwsv3
